import Mathlib

/-!
Verification of the chord-transposition and song-validation core of the
`chord-gitar` repository (`src/utils/transpose.ts`, `src/utils/validation.ts`).

Strings from the source are modelled as `List Char` (JavaScript strings are
sequences of UTF-16 code units; all inputs relevant here are plain ASCII, and
`String.length` / `toLowerCase` are modelled on code points).  JavaScript
functions that can `throw` are modelled with `Except (List Char)`, carrying the
thrown error message.  Every definition below is translated from the TypeScript
source; deviations forced by the host platform (the WHATWG `URL` parser, the
exact whitespace set of `String.prototype.trim`) are noted at the definition.
-/

set_option maxHeartbeats 1000000
set_option maxRecDepth 4096

deriving instance DecidableEq for Except

-- ---------------------------------------------------------------------------
-- Character helpers (JS character classes used by the source's regexes)
-- ---------------------------------------------------------------------------

/-- The character class `[A-G]` of the source's chord regexes. -/
def isNoteLetter (c : Char) : Bool := 'A' ≤ c && c ≤ 'G'

/-- The character class `[a-g]` (case-insensitive regexes, after lowercasing). -/
def isLowNoteLetter (c : Char) : Bool := 'a' ≤ c && c ≤ 'g'

/-- The character class `[#b]` of the source's chord regexes. -/
def isAccidental (c : Char) : Bool := c = '#' || c = 'b'

/-- JS whitespace, as removed by `String.prototype.trim` and matched by `\s`
(restricted to the ASCII whitespace characters; the Unicode space characters
never occur in the inputs considered here). -/
def isWS (c : Char) : Bool :=
  c = ' ' || c = '\t' || c = '\n' || c = '\r' || c = '\x0b' || c = '\x0c'

/-- JS line terminators, which the regex metacharacter `.` does not match. -/
def isLineTerm (c : Char) : Bool :=
  c = '\n' || c = '\r' || c = ' ' || c = ' '

/-- Strip trailing JS whitespace. -/
def trimRight (l : List Char) : List Char :=
  (l.reverse.dropWhile isWS).reverse

/-- `String.prototype.trim`. -/
def trim (l : List Char) : List Char :=
  trimRight (l.dropWhile isWS)

/-- `String.prototype.includes(pat)`: substring test. -/
def containsSub (pat l : List Char) : Bool :=
  l.tails.any fun t => pat.isPrefixOf t

/-- `String.prototype.replace(c, '')` for a single-character pattern:
removes the first occurrence only. -/
def removeFirst (c : Char) : List Char → List Char
  | [] => []
  | x :: xs => if x = c then xs else x :: removeFirst c xs

-- ---------------------------------------------------------------------------
-- Constants (transpose.ts, lines 12-41)
-- ---------------------------------------------------------------------------

def NOTES : List (List Char) :=
  ["C".data, "C#".data, "D".data, "D#".data, "E".data, "F".data,
   "F#".data, "G".data, "G#".data, "A".data, "A#".data, "B".data]

def FLAT_NOTES : List (List Char) :=
  ["C".data, "Db".data, "D".data, "Eb".data, "E".data, "F".data,
   "Gb".data, "G".data, "Ab".data, "A".data, "Bb".data, "B".data]

def SHARP_NOTES : List (List Char) :=
  ["C".data, "C#".data, "D".data, "D#".data, "E".data, "F".data,
   "F#".data, "G".data, "G#".data, "A".data, "A#".data, "B".data]

structure KeySig where
  name : List Char
  index : Nat
  flats : Nat
  sharps : Nat
deriving DecidableEq, Repr

def MAJOR_KEYS : List KeySig :=
  [⟨"C".data, 0, 0, 0⟩, ⟨"G".data, 7, 0, 1⟩, ⟨"D".data, 2, 0, 2⟩,
   ⟨"A".data, 9, 0, 3⟩, ⟨"E".data, 4, 0, 4⟩, ⟨"B".data, 11, 0, 5⟩,
   ⟨"F#".data, 6, 1, 6⟩, ⟨"Db".data, 1, 5, 0⟩, ⟨"Ab".data, 8, 4, 0⟩,
   ⟨"Eb".data, 3, 3, 0⟩, ⟨"Bb".data, 10, 2, 0⟩, ⟨"F".data, 5, 1, 0⟩]

/-- Minor key signatures, derived from the majors
(`name = NOTES[(major.index + 9) % 12] + 'm'`). -/
def MINOR_KEYS : List KeySig :=
  MAJOR_KEYS.map fun major =>
    ⟨NOTES.getD ((major.index + 9) % 12) [] ++ ['m'],
     (major.index + 9) % 12, major.flats, major.sharps⟩

-- ---------------------------------------------------------------------------
-- Note helpers (transpose.ts, lines 65-108)
-- ---------------------------------------------------------------------------

/-- `normalizeToSharp` (transpose.ts line 68).  The flat lookup is keyed on the
fully lowercased note and its values are the *lowercase* strings written in the
source (`'db': 'c#'` and so on); otherwise only the first character is
uppercased (the source's `.replace('#', '#')` is the identity). -/
def normalizeToSharp (note : List Char) : List Char :=
  let lowerNote := note.map Char.toLower
  if lowerNote = "db".data then "c#".data
  else if lowerNote = "eb".data then "d#".data
  else if lowerNote = "gb".data then "f#".data
  else if lowerNote = "ab".data then "g#".data
  else if lowerNote = "bb".data then "a#".data
  else if lowerNote = "cb".data then "b".data
  else if lowerNote = "fb".data then "e".data
  else match note with
       | [] => []
       | c :: rest => c.toUpper :: rest

/-- The message of the error thrown by `getNoteIndex`. -/
def invalidNoteMsg (note : List Char) : List Char :=
  "Invalid note: ".data ++ note

/-- `getNoteIndex` (transpose.ts line 91): index of the normalized note in
`NOTES`, throwing `Invalid note: ...` when `indexOf` returns `-1`. -/
def getNoteIndex (note : List Char) : Except (List Char) Nat :=
  let normalized := normalizeToSharp note
  let index := NOTES.indexOf normalized
  if index < NOTES.length then .ok index
  else .error (invalidNoteMsg note)

/-- The index arithmetic of `transposeNote` (transpose.ts line 105):
`((currentIndex + semitones) % 12 + 12) % 12` with JS's truncating `%`. -/
def shiftIdx (i : Nat) (semitones : Int) : Nat :=
  ((((i : Int) + semitones).tmod 12 + 12).tmod 12).toNat

/-- `transposeNote` (transpose.ts line 103). -/
def transposeNote (note : List Char) (semitones : Int) (useFlats : Bool) :
    Except (List Char) (List Char) := do
  let currentIndex ← getNoteIndex note
  let notes := if useFlats then FLAT_NOTES else SHARP_NOTES
  pure (notes.getD (shiftIdx currentIndex semitones) [])

-- ---------------------------------------------------------------------------
-- Chord parsing (transpose.ts, lines 114-141)
-- ---------------------------------------------------------------------------

structure ParsedChord where
  root : List Char
  quality : List Char
  bass : Option (List Char)
deriving DecidableEq, Repr

/-- `[ '/', x ]` with `x ∈ [A-G]`: a two-character match of `\/[A-G][#b]?`. -/
def validBass2 (l : List Char) : Bool :=
  match l with
  | [s, x] => s = '/' && isNoteLetter x
  | _ => false

/-- `[ '/', x, a ]` with `x ∈ [A-G]`, `a ∈ [#b]`: a three-character match of
`\/[A-G][#b]?`. -/
def validBass3 (l : List Char) : Bool :=
  match l with
  | [s, x, a] => s = '/' && isNoteLetter x && isAccidental a
  | _ => false

/-- The split performed by `(.*?)(\/[A-G][#b]?)?$` on the text after the root:
the lazy quality group is as short as possible, so the leftover is the longest
suffix that is either a valid `/bass` (three characters preferred over two) or
empty.  The returned bass has the `/` already removed (`match[3]?.slice(1)`). -/
def splitBass (rest : List Char) : List Char × Option (List Char) :=
  if 3 ≤ rest.length && validBass3 (rest.drop (rest.length - 3)) then
    (rest.take (rest.length - 3), some (rest.drop (rest.length - 2)))
  else if 2 ≤ rest.length && validBass2 (rest.drop (rest.length - 2)) then
    (rest.take (rest.length - 2), some (rest.drop (rest.length - 1)))
  else (rest, none)

/-- `parseChord` (transpose.ts line 117): matches the trimmed chord against
`^([A-G][#b]?)(.*?)(\/[A-G][#b]?)?$`.  The match fails — and the function
degrades to `{root: chord, quality: ''}` with the *untrimmed* input — when the
trimmed text is empty, does not start with `A`–`G`, or contains a line
terminator after the root (the regex `.` cannot match one, and neither can the
bass group). -/
def rootSplit (c : Char) (cs : List Char) : List Char × List Char :=
  match cs with
  | a :: cs' => if isAccidental a then ([c, a], cs') else ([c], cs)
  | [] => ([c], [])

def parseChord (chord : List Char) : ParsedChord :=
  match trim chord with
  | [] => ⟨chord, [], none⟩
  | c :: cs =>
    if isNoteLetter c then
      if (rootSplit c cs).2.any isLineTerm then ⟨chord, [], none⟩
      else
        ⟨(rootSplit c cs).1, (splitBass (rootSplit c cs).2).1,
         (splitBass (rootSplit c cs).2).2⟩
    else ⟨chord, [], none⟩

/-- The quality alternatives of `isChord`'s first pattern
`^[A-G][#b]?(m|maj|dim|aug|sus|add| maj7| m7| 7| maj9| m9| 9| 11| 13)?$/i`,
lowercased; note the leading spaces written in the source. -/
def isChordQualities : List (List Char) :=
  ["".data, "m".data, "maj".data, "dim".data, "aug".data, "sus".data,
   "add".data, " maj7".data, " m7".data, " 7".data, " maj9".data,
   " m9".data, " 9".data, " 11".data, " 13".data]

/-- Both ways the optional `[#b]?` can consume the text after the root letter
(with the accidental, when present, and without). -/
def afterRoot (letterP : Char → Bool) (l : List Char) : List (List Char) :=
  match l with
  | c :: rest =>
    if letterP c then
      match rest with
      | a :: rest' => if isAccidental a then [rest, rest'] else [rest]
      | [] => [[]]
    else []
  | [] => []

/-- First pattern of `isChord`, on the lowercased trimmed text. -/
def isChordPattern1 (low : List Char) : Bool :=
  (afterRoot isLowNoteLetter low).any fun r => isChordQualities.contains r

/-- Second pattern of `isChord`: the source writes
`^[A-G][#b]?\/(A-G][#b]?)?$/i` — the group's opening `[` is missing, so
`A-G]` is matched literally. -/
def isChordPattern2 (low : List Char) : Bool :=
  (afterRoot isLowNoteLetter low).any fun r =>
    match r with
    | '/' :: t => t = [] || t = "a-g]".data || t = "a-g]#".data || t = "a-g]b".data
    | _ => false

/-- `isChord` (transpose.ts line 135). -/
def isChord (text : List Char) : Bool :=
  let t := (trim text).map Char.toLower
  isChordPattern1 t || isChordPattern2 t

-- ---------------------------------------------------------------------------
-- Core transposition (transpose.ts, lines 150-181)
-- ---------------------------------------------------------------------------

/-- Sequential `Array.prototype.map` with a callback that may throw: the first
exception aborts the whole map. -/
def mapME (f : α → Except ε β) : List α → Except ε (List β)
  | [] => .ok []
  | a :: l => do
    let b ← f a
    let bs ← mapME f l
    pure (b :: bs)

/-- `transposeChord` (transpose.ts line 150).  `useFlats` defaults to `false`
in the source; callers below always pass it explicitly. -/
def transposeChord (chord : List Char) (semitones : Int) (useFlats : Bool) :
    Except (List Char) (List Char) :=
  if semitones = 0 || trim chord = [] then .ok chord
  else
    let parsed := parseChord chord
    do
      let newRoot ← transposeNote parsed.root semitones useFlats
      match parsed.bass with
      | some b => do
        let newBass ← transposeNote b semitones useFlats
        pure (newRoot ++ parsed.quality ++ '/' :: newBass)
      | none => pure (newRoot ++ parsed.quality)

/-- `transposeChords` (transpose.ts line 175): short-circuits to the same list
when `semitones = 0`, otherwise maps `transposeChord` over the list. -/
def transposeChords (chords : List (List Char)) (semitones : Int) :
    Except (List Char) (List (List Char)) :=
  if semitones = 0 then .ok chords
  else mapME (fun chord => transposeChord chord semitones false) chords

-- ---------------------------------------------------------------------------
-- Lyrics transposition (transpose.ts, lines 186-218)
-- ---------------------------------------------------------------------------

/-- Split at the first `]`: returns the text before it and the text after it. -/
def splitAtRB : List Char → Option (List Char × List Char)
  | [] => none
  | c :: rest =>
    if c = ']' then some ([], rest)
    else
      match splitAtRB rest with
      | some (content, after) => some (c :: content, after)
      | none => none

/-- The quality alternatives `(maj|m|dim|aug|sus|add|7| maj7| m7| 9| 11| 13)`
shared by the `aboveFormat` and `inlineFormat` regexes of `transposeLyrics`
(and, lowercased, by `isValidChord` in validation.ts). -/
def lyricQualities : List (List Char) :=
  ["maj".data, "m".data, "dim".data, "aug".data, "sus".data, "add".data,
   "7".data, " maj7".data, " m7".data, " 9".data, " 11".data, " 13".data]

/-- All remainders after consuming `[A-G][#b]?(quality)?` from the front of
`l`, for a given note-letter class; the set is complete, so `List.any` over it
decides whether a backtracking regex can match. -/
def afterChordTok (letterP : Char → Bool) (l : List Char) : List (List Char) :=
  (afterRoot letterP l).flatMap fun r =>
    r :: (lyricQualities.filterMap fun q =>
      if q.isPrefixOf r then some (r.drop q.length) else none)

/-- Does `rest` match `(,?\s*[A-G][#b]?(quality)?)*` followed by end-of-input?
`fuel` bounds the recursion (each iteration consumes at least one character). -/
def chordSeqTail (letterP : Char → Bool) : Nat → List Char → Bool
  | 0, _ => false
  | fuel + 1, l =>
    (afterChordTok letterP l).any fun r =>
      r = [] ||
        (let r1 := match r with
                   | ',' :: t => t
                   | _ => r
         chordSeqTail letterP fuel (r1.dropWhile isWS))

/-- Does `l` match `[A-G][#b]?(q)?(,?\s*[A-G][#b]?(q)?)*` exactly? -/
def chordSeq (l : List Char) : Bool :=
  chordSeqTail isNoteLetter (l.length + 1) l

/-- Length of the text remaining after `splitAtRB`. -/
theorem splitAtRB_lt : ∀ (l : List Char) (c a : List Char),
    splitAtRB l = some (c, a) → a.length < l.length := by
  intro l
  induction l with
  | nil => intro c a h; simp [splitAtRB] at h
  | cons x xs ih =>
    intro c a h
    simp only [splitAtRB] at h
    by_cases hx : x = ']'
    · rw [if_pos hx] at h
      cases h
      simp
    · rw [if_neg hx] at h
      cases h1 : splitAtRB xs with
      | none => rw [h1] at h; exact absurd h (by simp)
      | some p =>
        obtain ⟨c2, a2⟩ := p
        rw [h1] at h
        simp only [Option.some.injEq, Prod.mk.injEq] at h
        rw [← h.2]
        have := ih c2 a2 h1
        simp only [List.length_cons]
        omega

/-- `aboveFormat.test(line)` (transpose.ts line 197): the line is a sequence
of bracketed blocks separated and followed only by whitespace, where every
block but the last has non-empty content and the last block's content is a
chord sequence.  `fuel` bounds the recursion over blocks. -/
def aboveBlocks : Nat → List Char → Bool
  | 0, _ => false
  | fuel + 1, l =>
    match l with
    | '[' :: rest =>
      match splitAtRB rest with
      | none => false
      | some (content, after) =>
        let afterWS := after.dropWhile isWS
        (afterWS = [] && chordSeq content) ||
          (content ≠ [] && aboveBlocks fuel afterWS)
    | _ => false

def aboveFormatTest (line : List Char) : Bool :=
  aboveBlocks (line.length + 1) line

/-- Content of a bracketed token accepted by `inlineFormat`
(transpose.ts line 200): `[A-G][#b]?(quality)?(\/[A-G][#b]?)?`. -/
def inlineContentOk (content : List Char) : Bool :=
  (afterChordTok isNoteLetter content).any fun r =>
    r = [] || validBass2 r || validBass3 r

/-- `inlineFormat.test(line)`: some `[...]` token of the line matches.
A match must start at a `[` and, since no alternative of the pattern can
contain `]`, must end at the first `]` after it. -/
def inlineTest : List Char → Bool
  | [] => false
  | c :: rest =>
    (c = '[' &&
      (match splitAtRB rest with
       | some (content, _) => inlineContentOk content
       | none => false)) ||
    inlineTest rest

/-- `line.replace(/\[(...)\]/g, (_, chord) => "[" + transposeChord(chord) + "]")`:
scan left to right; at each `[` whose content (up to the first `]`) satisfies
`ok`, replace the bracketed content by the transposed chord and continue after
the `]`; otherwise keep scanning.  An exception from `transposeChord`
propagates. -/
def replaceBrackets (ok : List Char → Bool)
    (f : List Char → Except (List Char) (List Char)) :
    List Char → Except (List Char) (List Char)
  | [] => .ok []
  | c :: rest =>
    if h : c = '[' then
      match h2 : splitAtRB rest with
      | some (content, after) =>
        if ok content then do
          let t ← f content
          let tail ← replaceBrackets ok f after
          pure ('[' :: t ++ ']' :: tail)
        else do
          let tail ← replaceBrackets ok f rest
          pure (c :: tail)
      | none => do
        let tail ← replaceBrackets ok f rest
        pure (c :: tail)
    else do
      let tail ← replaceBrackets ok f rest
      pure (c :: tail)
termination_by l => l.length
decreasing_by
  · exact Nat.lt_succ_of_lt (splitAtRB_lt _ _ _ h2)
  · simp
  · simp
  · simp

/-- Content condition of the above-format replacement pattern
`\[([A-G][#b]?[^\]]*)\]`: non-empty content starting with a note letter. -/
def aboveReplOk (content : List Char) : Bool :=
  match content with
  | c :: _ => isNoteLetter c
  | [] => false

/-- One line of `transposeLyrics` (transpose.ts lines 195-214). -/
def transposeLyricsLine (semitones : Int) (line : List Char) :
    Except (List Char) (List Char) :=
  if aboveFormatTest line then
    replaceBrackets aboveReplOk (fun chord => transposeChord chord semitones false) line
  else if inlineTest line then
    replaceBrackets inlineContentOk (fun chord => transposeChord chord semitones false) line
  else .ok line

/-- `transposeLyrics` (transpose.ts line 186): short-circuits when
`semitones = 0`; otherwise splits on newlines, transposes each line, and
rejoins. -/
def transposeLyrics (lyrics : List Char) (semitones : Int) :
    Except (List Char) (List Char) :=
  if semitones = 0 then .ok lyrics
  else do
    let ls ← mapME (transposeLyricsLine semitones) (lyrics.splitOn '\n')
    pure (List.intercalate ['\n'] ls)

-- ---------------------------------------------------------------------------
-- Key detection (transpose.ts, lines 227-291)
-- ---------------------------------------------------------------------------

inductive Confidence | high | medium | low
deriving DecidableEq, Repr

structure KeyDetectionResult where
  detectedKey : List Char
  confidence : Confidence
  possibleKeys : List (List Char)
deriving DecidableEq, Repr

/-- One step of the `chordCounts` accumulation: JS object keys keep first
insertion order, so a new root is appended and an existing one is bumped. -/
def bumpCount (acc : List (List Char × Nat)) (root : List Char) :
    List (List Char × Nat) :=
  if acc.any (fun p => p.1 = root) then
    acc.map fun p => if p.1 = root then (p.1, p.2 + 1) else p
  else acc ++ [(root, 1)]

/-- `chordCounts` (transpose.ts lines 237-241): root-note frequencies in first
occurrence order (the insertion order of `Object.entries`). -/
def chordCounts (chords : List (List Char)) : List (List Char × Nat) :=
  chords.foldl (fun acc chord => bumpCount acc (parseChord chord).root) []

/-- The comparator `(a, b) => b[1] - a[1]`: descending count. -/
def countGE (a b : List Char × Nat) : Prop := b.2 ≤ a.2

instance : DecidableRel countGE := fun a b => Nat.decLe b.2 a.2

/-- `sortedRoots` (transpose.ts lines 244-246).  `Array.prototype.sort` is
stable, and insertion sort with a non-strict `≥` preserves the relative order
of entries with equal counts, so both produce the same list. -/
def sortedRoots (chords : List (List Char)) : List (List Char) :=
  ((chordCounts chords).insertionSort countGE).map Prod.fst

/-- The most frequent root (first of `sortedRoots`). -/
def topRoot (chords : List (List Char)) : List Char :=
  (sortedRoots chords).headD []

/-- `c.toLowerCase().includes('m') && !c.toLowerCase().includes('maj')`. -/
def minorSignal (c : List Char) : Bool :=
  (c.map Char.toLower).contains 'm' && !(containsSub "maj".data (c.map Char.toLower))

/-- `!c.toLowerCase().includes('m') || c.toLowerCase().includes('maj')`. -/
def majorSignal (c : List Char) : Bool :=
  !((c.map Char.toLower).contains 'm') || containsSub "maj".data (c.map Char.toLower)

/-- Names of the major and minor keys whose pitch class is `i`
(transpose.ts lines 255-258). -/
def keysFor (i : Nat) : List (List Char) :=
  ((MAJOR_KEYS.filter fun k => k.index = i).map KeySig.name) ++
    ((MINOR_KEYS.filter fun k => k.index = i).map KeySig.name)

/-- The callback of the `possibleKeys` flatMap: `getNoteIndex` may throw. -/
def keysForRoot (root : List Char) : Except (List Char) (List (List Char)) := do
  let rootIndex ← getNoteIndex root
  pure (keysFor rootIndex)

/-- `possibleKeys` (transpose.ts lines 253-259). -/
def possibleKeysOf (chords : List (List Char)) :
    Except (List Char) (List (List Char)) := do
  let ls ← mapME keysForRoot (sortedRoots chords)
  pure ls.flatten

/-- The best-guess selection (transpose.ts lines 262-269).  The source's
`detectedKey.replace(/^(?!.*m)/, '')` replaces an empty match by the empty
string and is the identity; only the `endsWith('m')` fallback to the minor
table is observable. -/
def chooseDetected (hasMin hasMaj : Bool) (possibleKeys : List (List Char)) :
    List Char :=
  let detectedKey := possibleKeys.headD "C".data
  if hasMin && !hasMaj then
    if detectedKey.getLast? = some 'm' then detectedKey
    else
      match MINOR_KEYS.find? (fun k => possibleKeys.head? = some (removeFirst 'm' k.name)) with
      | some minorVersion => minorVersion.name
      | none => detectedKey
  else detectedKey

/-- The confidence bands (transpose.ts lines 272-274). -/
def confidenceOf (n : Nat) : Confidence :=
  if 10 < n then .high else if 5 < n then .medium else .low

/-- Deduplication preserving first occurrence (transpose.ts lines 277-284). -/
def dedupeKeys (l : List (List Char)) : List (List Char) :=
  l.foldl (fun acc k => if acc.contains k then acc else acc ++ [k]) []

/-- `detectKey` (transpose.ts line 227). -/
def detectKey (chords : List (List Char)) :
    Except (List Char) KeyDetectionResult :=
  if chords = [] then
    .ok ⟨"C".data, .low, MAJOR_KEYS.map KeySig.name⟩
  else do
    let possibleKeys ← possibleKeysOf chords
    pure ⟨chooseDetected (chords.any minorSignal) (chords.any majorSignal) possibleKeys,
          confidenceOf chords.length,
          (dedupeKeys possibleKeys).take 5⟩

-- ---------------------------------------------------------------------------
-- Key distance (transpose.ts, lines 300-316)
-- ---------------------------------------------------------------------------

/-- `getSemitoneDistance` (transpose.ts line 300): `key.replace('m', '')`
strips the first `m` (the `.replace('#', '#')` is the identity); the raw
difference is wrapped by two sequential conditionals. -/
def getSemitoneDistance (fromKey toKey : List Char) :
    Except (List Char) Int := do
  let fromIndex ← getNoteIndex (removeFirst 'm' fromKey)
  let toIndex ← getNoteIndex (removeFirst 'm' toKey)
  let d0 : Int := (toIndex : Int) - (fromIndex : Int)
  let d1 := if 6 < d0 then d0 - 12 else d0
  let d2 := if d1 < -6 then d1 + 12 else d1
  pure d2

-- ---------------------------------------------------------------------------
-- Validation pipeline (validation.ts)
-- ---------------------------------------------------------------------------

inductive Severity | critical | major | minor
deriving DecidableEq, Repr

/-- A `ValidationError` `{field, message, severity}`.  The free-text `message`
is display-only (never branched on) and is omitted from the model. -/
structure ValidationError where
  field : List Char
  severity : Severity
deriving DecidableEq, Repr

/-- A `ValidationWarning` `{field, message}` (message omitted, as above). -/
structure ValidationWarning where
  field : List Char
deriving DecidableEq, Repr

structure ValidationResult where
  valid : Bool
  errors : List ValidationError
  warnings : List ValidationWarning
deriving DecidableEq, Repr

/-- The recomputation pattern used by the validators:
`errors.filter(e => e.severity === 'critical').length === 0`. -/
def computeValid (errors : List ValidationError) : Bool :=
  (errors.filter fun e => e.severity == Severity.critical).length == 0

/-- The fields of `SongMetadata` read by the validators (`id` is a JS number,
falsy exactly when `0`; the optional fields not read by the validators are
omitted). -/
structure SongMetadata where
  id : Int
  title : List Char
  artist : List Char
  url : Option (List Char)
deriving DecidableEq, Repr

/-- Inner loop of the Levenshtein matrix fill (validation.ts lines 273-282):
given `left = matrix[i][j-1]` and the previous row from position `j-1`
onwards, emit `matrix[i][j..]`. -/
def levRowAux (c1 : Char) : Nat → List Nat → List Char → List Nat
  | _, _, [] => []
  | left, prev, c2 :: crest =>
    match prev with
    | pdiag :: prest =>
      let pup := prest.headD 0
      let cost := if c1 = c2 then 0 else 1
      let v := min (min (pup + 1) (left + 1)) (pdiag + cost)
      v :: levRowAux c1 v prest crest
    | [] => []

/-- The Levenshtein distance of `calculateStringSimilarity`
(validation.ts lines 263-284), computed row by row;
`matrix[i][0] = i`, `matrix[0][j] = j`. -/
def levenshteinDistance (s1 s2 : List Char) : Nat :=
  let firstRow := List.range (s2.length + 1)
  let final := s1.foldl
    (fun (st : List Nat × Nat) c1 =>
      let i := st.2 + 1
      (i :: levRowAux c1 i st.1 s2, i))
    (firstRow, 0)
  final.1.getLastD 0

/-- `calculateStringSimilarity` (validation.ts line 251).  The source computes
`1 - distance / maxLength` in JS floating point; it is modelled exactly in
`ℚ`.  The value is only ever compared against the 0.9 threshold to emit a
(non-blocking) warning. -/
def calculateStringSimilarity (str1 str2 : List Char) : ℚ :=
  if str1 = str2 then 1
  else if str1.length = 0 ∨ str2.length = 0 then 0
  else
    let s1 := str1.map Char.toLower
    let s2 := str2.map Char.toLower
    if containsSub s2 s1 || containsSub s1 s2 then 8/10
    else
      let distance := levenshteinDistance s1 s2
      let maxLength := max s1.length s2.length
      1 - (distance : ℚ) / (maxLength : ℚ)

/-- `isValidUrl` (validation.ts line 292) delegates to the host platform's
WHATWG `URL` parser (not repository code) and accepts only `http:`/`https:`.
Modelled from the spec: a strict http/https well-formedness check,
approximated as an `http://`/`https://` prefix with a non-empty remainder.
It only ever contributes a `major` (non-critical) error, so no claim below
depends on its exact extension. -/
def isValidUrl (url : List Char) : Bool :=
  ("http://".data.isPrefixOf url && "http://".data.length < url.length) ||
    ("https://".data.isPrefixOf url && "https://".data.length < url.length)

/-- `validateMetadata` (validation.ts line 32).  Errors are accumulated in
source push order: `id`, `title`, `artist`, then the `url` check; the title
similarity check only emits a warning. -/
def validateMetadata (metadata : SongMetadata)
    (expectedTitle : Option (List Char)) : ValidationResult :=
  let errors1 : List ValidationError :=
    if metadata.id = 0 then [⟨"id".data, .critical⟩] else []
  let errors2 : List ValidationError :=
    if trim metadata.title = [] then [⟨"title".data, .critical⟩] else []
  let errors3 : List ValidationError :=
    if trim metadata.artist = [] then [⟨"artist".data, .critical⟩] else []
  let warnings1 : List ValidationWarning :=
    match expectedTitle with
    | some e =>
      if e ≠ [] ∧ metadata.title ≠ [] then
        if calculateStringSimilarity (metadata.title.map Char.toLower)
            (e.map Char.toLower) < 9/10 then
          [⟨"title".data⟩]
        else []
      else []
    | none => []
  let errors4 : List ValidationError :=
    match metadata.url with
    | some u => if u ≠ [] ∧ !isValidUrl u then [⟨"url".data, .major⟩] else []
    | none => []
  let errors := errors1 ++ errors2 ++ errors3 ++ errors4
  { valid := computeValid errors, errors := errors, warnings := warnings1 }

/-- `\s+` followed by a continuation: at least one whitespace character, then
the greedily stripped remainder must satisfy `pat` (the continuation never
starts with whitespace, so greedy stripping is complete). -/
def wsPlusThen (pat : List Char → Bool) (r : List Char) : Bool :=
  match r with
  | c :: _ => isWS c && pat (r.dropWhile isWS)
  | [] => false

def httpAfter (r : List Char) : Bool :=
  "http://".data.isPrefixOf r || "https://".data.isPrefixOf r

/-- A match of `/See\s+https?:\/\//i` starting at `t` (already lowercased). -/
def seeLinkAt (t : List Char) : Bool :=
  "see".data.isPrefixOf t && wsPlusThen httpAfter (t.drop 3)

/-- A match of `/Full\s+lyrics\s+at/i` starting at `t` (already lowercased). -/
def fullLyricsAt (t : List Char) : Bool :=
  "full".data.isPrefixOf t &&
    wsPlusThen
      (fun r1 => "lyrics".data.isPrefixOf r1 &&
        wsPlusThen (fun r2 => "at".data.isPrefixOf r2) (r1.drop 6))
      (t.drop 4)

/-- The section-header prefixes of `parseSections` (validation.ts lines
313-320): each pattern `^Name\s*\d*:?\s*/i` matches exactly when the line
starts with the name (case-insensitively), every other component being
optional. -/
def sectionTypes : List (List Char) :=
  ["intro".data, "verse".data, "pre-chorus".data, "chorus".data,
   "bridge".data, "outro".data]

def headerTypeOf (line : List Char) : Option (List Char) :=
  sectionTypes.find? fun t => t.isPrefixOf (line.map Char.toLower)

structure SongSection where
  type : List Char
  content : List Char
  isChorus : Bool
deriving DecidableEq, Repr

/-- One line of the `parseSections` loop (validation.ts lines 330-353); the
state is (flushed sections, current section). -/
def parseSectionsStep (st : List SongSection × SongSection) (line : List Char) :
    List SongSection × SongSection :=
  match headerTypeOf line with
  | some t =>
    let sections := if trim st.2.content ≠ [] then st.1 ++ [st.2] else st.1
    (sections, ⟨t, [], t = "chorus".data⟩)
  | none =>
    if trim line ≠ [] then
      (st.1, ⟨st.2.type,
              st.2.content ++ (if st.2.content ≠ [] then '\n' :: line else line),
              st.2.isChorus⟩)
    else st

/-- `parseSections` (validation.ts line 312).  The initial section's
`isChorus` is absent in the source (undefined, falsy) and modelled `false`. -/
def parseSections (lyrics : List Char) : List SongSection :=
  let st := (lyrics.splitOn '\n').foldl parseSectionsStep
    ([], ⟨"other".data, [], false⟩)
  if trim st.2.content ≠ [] then st.1 ++ [st.2] else st.1

/-- `validateLyrics` (validation.ts line 98).  `lyrics.length` counts UTF-16
code units in JS, modelled as the character count (all relevant inputs are
ASCII).  Note the final validity is `errors.length === 0` in the source. -/
def validateLyrics (lyrics : List Char) : ValidationResult :=
  if trim lyrics = [] then
    { valid := false, errors := [⟨"lyrics".data, .critical⟩], warnings := [] }
  else
    let errors : List ValidationError :=
      if lyrics.length < 100 then [⟨"lyrics".data, .critical⟩] else []
    let low := lyrics.map Char.toLower
    let w1 : List ValidationWarning :=
      if low.tails.any seeLinkAt then [⟨"lyrics".data⟩] else []
    let w2 : List ValidationWarning :=
      if low.tails.any fullLyricsAt then [⟨"lyrics".data⟩] else []
    let w3 : List ValidationWarning :=
      if " lyrics".data.isSuffixOf low then [⟨"lyrics".data⟩] else []
    let w4 : List ValidationWarning :=
      if containsSub "translations".data low then [⟨"lyrics".data⟩] else []
    let w5 : List ValidationWarning :=
      if (parseSections lyrics).length < 2 then [⟨"lyrics".data⟩] else []
    { valid := errors.length == 0, errors := errors,
      warnings := w1 ++ w2 ++ w3 ++ w4 ++ w5 }

structure ParsedSong where
  metadata : SongMetadata
  sections : List SongSection
  detectedChords : List (List Char)
deriving DecidableEq, Repr

/-- The optional `\/[A-G][#b]?` tail of `isValidChord`, on lowercased text. -/
def validBassLow (r : List Char) : Bool :=
  match r with
  | ['/', x] => isLowNoteLetter x
  | ['/', x, a] => isLowNoteLetter x && isAccidental a
  | _ => false

/-- `isValidChord` (validation.ts line 304):
`^[A-G][#b]?(maj|m|dim|aug|sus|add|7| maj7| m7| 9| 11| 13)?(\/[A-G][#b]?)?$/i`. -/
def isValidChord (chord : List Char) : Bool :=
  let low := chord.map Char.toLower
  (afterChordTok isLowNoteLetter low).any fun r => r = [] || validBassLow r

/-- `validateParsedSong` (validation.ts line 156). -/
def validateParsedSong (song : ParsedSong) : ValidationResult :=
  let metadataResult := validateMetadata song.metadata none
  let e2 : List ValidationError :=
    if song.sections.length = 0 then [⟨"sections".data, .critical⟩] else []
  let emptySections := song.sections.filter fun s => trim s.content = []
  let w2 : List ValidationWarning :=
    if 0 < emptySections.length then [⟨"sections".data⟩] else []
  let w3 : List ValidationWarning :=
    if 0 < song.detectedChords.length then
      (if 0 < (song.detectedChords.filter fun c => !isValidChord c).length then
        [⟨"chords".data⟩]
      else [])
    else []
  let errors := metadataResult.errors ++ e2
  { valid := computeValid errors, errors := errors,
    warnings := metadataResult.warnings ++ w2 ++ w3 }

def MAX_RETRIES : Nat := 2

/-- `validateSong` (validation.ts line 204): metadata check, early return on
an invalid metadata result once the retry budget is exhausted, lyrics check,
early return likewise, otherwise the union of both results with validity
recomputed from the union's critical errors. -/
def validateSong (metadata : SongMetadata) (lyrics : List Char)
    (expectedTitle : Option (List Char)) (retryCount : Option Nat) :
    ValidationResult :=
  let retry := retryCount.getD 0
  let metadataResult := validateMetadata metadata expectedTitle
  if !metadataResult.valid && MAX_RETRIES ≤ retry then metadataResult
  else
    let lyricsResult := validateLyrics lyrics
    if !lyricsResult.valid && MAX_RETRIES ≤ retry then lyricsResult
    else
      let combinedErrors := metadataResult.errors ++ lyricsResult.errors
      { valid := computeValid combinedErrors,
        errors := combinedErrors,
        warnings := metadataResult.warnings ++ lyricsResult.warnings }

-- ---------------------------------------------------------------------------
-- Basic lemmas
-- ---------------------------------------------------------------------------

theorem computeValid_eq_not_any (es : List ValidationError) :
    computeValid es = !(es.any fun e => e.severity == Severity.critical) := by
  induction es with
  | nil => rfl
  | cons e t ih =>
    simp only [computeValid, List.filter, List.any] at *
    cases hp : (e.severity == Severity.critical) <;> simp [hp, ih]

theorem computeValid_append (es1 es2 : List ValidationError) :
    computeValid (es1 ++ es2) = (computeValid es1 && computeValid es2) := by
  simp only [computeValid_eq_not_any, List.any_append, Bool.not_or]

theorem computeValid_append_critical (es : List ValidationError) (f : List Char) :
    computeValid (es ++ [⟨f, Severity.critical⟩]) = false := by
  rw [computeValid_append]
  simp [computeValid]

theorem validateMetadata_valid_eq (m : SongMetadata) (e : Option (List Char)) :
    (validateMetadata m e).valid =
      !((validateMetadata m e).errors.any fun er => er.severity == Severity.critical) := by
  simp only [validateMetadata]
  exact computeValid_eq_not_any _

theorem validateLyrics_valid_eq (l : List Char) :
    (validateLyrics l).valid =
      !((validateLyrics l).errors.any fun er => er.severity == Severity.critical) := by
  simp only [validateLyrics]
  split
  · rfl
  · dsimp only
    split <;> rfl

theorem validateParsedSong_valid_eq (s : ParsedSong) :
    (validateParsedSong s).valid =
      !((validateParsedSong s).errors.any fun er => er.severity == Severity.critical) := by
  simp only [validateParsedSong]
  exact computeValid_eq_not_any _

theorem validateSong_valid_eq (m : SongMetadata) (l : List Char)
    (e : Option (List Char)) (rc : Option Nat) :
    (validateSong m l e rc).valid =
      !((validateSong m l e rc).errors.any fun er => er.severity == Severity.critical) := by
  simp only [validateSong]
  split
  · exact validateMetadata_valid_eq m e
  · split
    · exact validateLyrics_valid_eq l
    · exact computeValid_eq_not_any _

-- ---------------------------------------------------------------------------
-- Claim C3
-- ---------------------------------------------------------------------------

/-- C3: every `ValidationResult` returned by `validateMetadata`,
`validateLyrics`, `validateParsedSong` or `validateSong` satisfies
`valid = (no error has severity critical)`; appending a critical error to an
error list makes the recomputed validity false, and unioning error lists
multiplies their validities (so a union with a critical error can only move
`valid` from true to false, never the reverse); warnings do not occur in any
of these computations of `valid`. -/
theorem C3_valid_invariant :
    (∀ (m : SongMetadata) (e : Option (List Char)),
      (validateMetadata m e).valid =
        !((validateMetadata m e).errors.any fun er => er.severity == Severity.critical)) ∧
    (∀ l : List Char,
      (validateLyrics l).valid =
        !((validateLyrics l).errors.any fun er => er.severity == Severity.critical)) ∧
    (∀ s : ParsedSong,
      (validateParsedSong s).valid =
        !((validateParsedSong s).errors.any fun er => er.severity == Severity.critical)) ∧
    (∀ (m : SongMetadata) (l : List Char) (e : Option (List Char)) (rc : Option Nat),
      (validateSong m l e rc).valid =
        !((validateSong m l e rc).errors.any fun er => er.severity == Severity.critical)) ∧
    (∀ (es : List ValidationError) (f : List Char),
      computeValid (es ++ [⟨f, Severity.critical⟩]) = false) ∧
    (∀ es1 es2 : List ValidationError,
      computeValid (es1 ++ es2) = (computeValid es1 && computeValid es2)) :=
  ⟨validateMetadata_valid_eq, validateLyrics_valid_eq, validateParsedSong_valid_eq,
   validateSong_valid_eq, computeValid_append_critical, computeValid_append⟩

-- ---------------------------------------------------------------------------
-- Claim C7
-- ---------------------------------------------------------------------------

/-- C7: `validateSong` runs the metadata check then the lyrics check; when a
check is invalid and the supplied retry count has reached the budget of 2, it
returns that single failing check's result unchanged (first the metadata
result, the lyrics findings not merged in; then the lyrics result);
otherwise it returns the union of both checks' errors and warnings with
validity recomputed from the union. -/
theorem C7_validateSong_orchestration (m : SongMetadata) (l : List Char)
    (e : Option (List Char)) (rc : Option Nat) :
    ((validateMetadata m e).valid = false → MAX_RETRIES ≤ rc.getD 0 →
      validateSong m l e rc = validateMetadata m e) ∧
    ((validateMetadata m e).valid = true → (validateLyrics l).valid = false →
      MAX_RETRIES ≤ rc.getD 0 →
      validateSong m l e rc = validateLyrics l) ∧
    (((validateMetadata m e).valid = true ∧ (validateLyrics l).valid = true) ∨
        rc.getD 0 < MAX_RETRIES →
      validateSong m l e rc =
        { valid := computeValid ((validateMetadata m e).errors ++ (validateLyrics l).errors),
          errors := (validateMetadata m e).errors ++ (validateLyrics l).errors,
          warnings := (validateMetadata m e).warnings ++ (validateLyrics l).warnings }) := by
  refine ⟨fun h1 h2 => ?_, fun h1 h2 h3 => ?_, fun h => ?_⟩
  · simp [validateSong, h1, h2]
  · simp [validateSong, h1, h2, h3]
  · rcases h with ⟨h1, h2⟩ | h1
    · simp [validateSong, h1, h2]
    · have : ¬ MAX_RETRIES ≤ rc.getD 0 := by omega
      simp [validateSong, this]

/-- Witness for C7 at concrete inputs: with a falsy id (critical metadata
error) and retry count 2, `validateSong` returns the metadata result alone. -/
theorem C7_validateSong_orchestration_witness :
    validateSong ⟨0, "T".data, "A".data, none⟩ "hi".data none (some 2) =
      validateMetadata ⟨0, "T".data, "A".data, none⟩ none :=
  (C7_validateSong_orchestration ⟨0, "T".data, "A".data, none⟩ "hi".data none
    (some 2)).1 (by decide) (by decide)

-- ---------------------------------------------------------------------------
-- Claim C1
-- ---------------------------------------------------------------------------

/-- C1: contrary to the claim, the flat-to-sharp lookup maps the five flat
spellings to *lowercase* strings, which are not members of the uppercase
`NOTES` table, so `getNoteIndex` throws `Invalid note` on every flat
spelling, and `transposeChord` on a chord with such a root and nonzero shift
throws instead of returning a transposed chord. -/
theorem C1_flat_spellings_throw :
    getNoteIndex "Db".data = .error (invalidNoteMsg "Db".data) ∧
    getNoteIndex "Eb".data = .error (invalidNoteMsg "Eb".data) ∧
    getNoteIndex "Gb".data = .error (invalidNoteMsg "Gb".data) ∧
    getNoteIndex "Ab".data = .error (invalidNoteMsg "Ab".data) ∧
    getNoteIndex "Bb".data = .error (invalidNoteMsg "Bb".data) ∧
    transposeChord "Db".data 1 false = .error (invalidNoteMsg "Db".data) ∧
    getNoteIndex "C#".data = .ok 1 := by decide

-- ---------------------------------------------------------------------------
-- Claim C2
-- ---------------------------------------------------------------------------

/-- C2: contrary to the claim, `isChord` rejects every suffix alternative the
source wrote with a leading space (`7`, `maj7`, `m7`, `9`, `11`, `13`) and
every slash-bass chord (the second pattern's group is malformed), while the
spaceless alternatives still match. -/
theorem C2_isChord_evaluation :
    isChord "C7".data = false ∧
    isChord "Cmaj7".data = false ∧
    isChord "Am7".data = false ∧
    isChord "C9".data = false ∧
    isChord "C/E".data = false ∧
    isChord "Am".data = true ∧
    isChord "Cmaj".data = true ∧
    isChord "F#dim".data = true := by decide

-- ---------------------------------------------------------------------------
-- Claim C5
-- ---------------------------------------------------------------------------

/-- C5: contrary to the claim, `getSemitoneDistance` throws on every key pair
involving one of the flat-named keys of the key table (`Db`, `Eb`, `Ab`,
`Bb`), because the note lookup rejects flat spellings (see C1); no value in
`[-6, 6]` is returned for such pairs. -/
theorem C5_keyDistance_throws_on_flat_keys :
    getSemitoneDistance "Db".data "C".data = .error (invalidNoteMsg "Db".data) ∧
    getSemitoneDistance "C".data "Db".data = .error (invalidNoteMsg "Db".data) ∧
    getSemitoneDistance "Am".data "C".data = .ok 3 := by decide

-- ---------------------------------------------------------------------------
-- Claim C8
-- ---------------------------------------------------------------------------

/-- C8: a semitone shift of zero is the identity: `transposeChord` returns its
input unchanged for every string, `transposeLyrics` returns its input
unchanged for every string, and `transposeChords` short-circuits and returns
the same list without mapping over its elements. -/
theorem C8_zero_shift_identity :
    (∀ c : List Char, transposeChord c 0 false = .ok c) ∧
    (∀ t : List Char, transposeLyrics t 0 = .ok t) ∧
    (∀ l : List (List Char), transposeChords l 0 = .ok l) := by
  refine ⟨fun c => ?_, fun t => ?_, fun l => ?_⟩
  · simp [transposeChord]
  · simp [transposeLyrics]
  · simp [transposeChords]

-- ---------------------------------------------------------------------------
-- Key-detection lemmas
-- ---------------------------------------------------------------------------

/-- `Except` success test. -/
def exOk : Except ε α → Bool
  | .ok _ => true
  | .error _ => false

theorem exOk_iff {x : Except ε α} : exOk x = true ↔ ∃ a, x = .ok a := by
  cases x <;> simp [exOk]

theorem getNoteIndex_lt {n : List Char} {i : Nat}
    (h : getNoteIndex n = .ok i) : i < 12 := by
  simp only [getNoteIndex] at h
  split at h
  · next hlt =>
    cases h
    have hlen : NOTES.length = 12 := rfl
    omega
  · cases h

theorem getNoteIndex_error_shape {n : List Char} {e : List Char}
    (h : getNoteIndex n = .error e) : e = invalidNoteMsg n := by
  simp only [getNoteIndex] at h
  split at h
  · cases h
  · cases h; rfl

theorem keysForRoot_ok {r : List Char} {i : Nat}
    (h : getNoteIndex r = .ok i) : keysForRoot r = .ok (keysFor i) := by
  unfold keysForRoot
  rw [show (do
      let rootIndex ← getNoteIndex r
      pure (keysFor rootIndex) : Except (List Char) (List (List Char))) =
    Except.bind (getNoteIndex r) (fun i => Except.ok (keysFor i)) from rfl]
  rw [h]
  rfl

theorem keysForRoot_error {r : List Char} {e : List Char}
    (h : getNoteIndex r = .error e) : keysForRoot r = .error (invalidNoteMsg r) := by
  unfold keysForRoot
  rw [show (do
      let rootIndex ← getNoteIndex r
      pure (keysFor rootIndex) : Except (List Char) (List (List Char))) =
    Except.bind (getNoteIndex r) (fun i => Except.ok (keysFor i)) from rfl]
  rw [h, getNoteIndex_error_shape h]
  rfl

theorem mapME_cons (f : α → Except ε β) (a : α) (l : List α) :
    mapME f (a :: l) =
      Except.bind (f a) (fun b => Except.bind (mapME f l) (fun bs => .ok (b :: bs))) := rfl

theorem mapME_ok_of_forall (f : α → Except ε β) :
    ∀ l : List α, (∀ x ∈ l, exOk (f x) = true) → ∃ ys, mapME f l = .ok ys := by
  intro l
  induction l with
  | nil => intro _; exact ⟨[], rfl⟩
  | cons a t ih =>
    intro h
    obtain ⟨b, hb⟩ := exOk_iff.mp (h a (by simp))
    obtain ⟨ys, hys⟩ := ih fun x hx => h x (by simp [hx])
    exact ⟨b :: ys, by rw [mapME_cons, hb, hys]; rfl⟩

theorem mapME_keysForRoot_error :
    ∀ l : List (List Char), (∃ x ∈ l, exOk (getNoteIndex x) = false) →
      ∃ note, mapME keysForRoot l = .error (invalidNoteMsg note) := by
  intro l
  induction l with
  | nil => rintro ⟨x, hx, _⟩; cases hx
  | cons a t ih =>
    rintro ⟨x, hx, hbad⟩
    by_cases ha : exOk (getNoteIndex a) = true
    · obtain ⟨i, hi⟩ := exOk_iff.mp ha
      have hxt : x ∈ t := by
        rcases List.mem_cons.mp hx with rfl | hxt
        · rw [ha] at hbad; cases hbad
        · exact hxt
      obtain ⟨note, hnote⟩ := ih ⟨x, hxt, hbad⟩
      refine ⟨note, ?_⟩
      rw [mapME_cons, keysForRoot_ok hi, hnote]
      rfl
    · rcases hge : getNoteIndex a with e | i
      · exact ⟨a, by rw [mapME_cons, keysForRoot_error hge]; rfl⟩
      · rw [hge] at ha; exact absurd rfl ha

/-- Keys of `bumpCount` : bumping preserves the key list, except that a new
root is appended. -/
theorem bumpCount_keys (acc : List (List Char × Nat)) (r : List Char) :
    (bumpCount acc r).map Prod.fst =
      acc.map Prod.fst ++ (if acc.any (fun p => p.1 = r) then [] else [r]) := by
  unfold bumpCount
  split
  · next h =>
    simp only [List.append_nil, List.map_map]
    congr 1
    funext p
    by_cases hp : p.1 = r <;> simp [hp]
  · simp

theorem bumpCount_ne_nil (acc : List (List Char × Nat)) (r : List Char) :
    bumpCount acc r ≠ [] := by
  unfold bumpCount
  split
  · next h =>
    intro hc
    rw [List.map_eq_nil_iff] at hc
    rw [hc] at h
    simp at h
  · simp

theorem mem_bumpCount_keys {acc : List (List Char × Nat)} {root r : List Char} :
    r ∈ (bumpCount acc root).map Prod.fst ↔ r ∈ acc.map Prod.fst ∨ r = root := by
  rw [bumpCount_keys, List.mem_append]
  split
  · next h =>
    simp only [List.not_mem_nil, or_false]
    constructor
    · exact Or.inl
    · rintro (h1 | rfl)
      · exact h1
      · simp only [List.any_eq_true, decide_eq_true_eq] at h
        obtain ⟨p, hp, hp1⟩ := h
        exact List.mem_map.mpr ⟨p, hp, hp1⟩
  · simp

theorem mem_keys_foldl_bump :
    ∀ (l : List (List Char)) (acc : List (List Char × Nat)) (r : List Char),
      r ∈ (l.foldl (fun acc chord => bumpCount acc (parseChord chord).root) acc).map Prod.fst ↔
        r ∈ acc.map Prod.fst ∨ r ∈ l.map (fun c => (parseChord c).root) := by
  intro l
  induction l with
  | nil => simp
  | cons a t ih =>
    intro acc r
    rw [List.foldl_cons, ih, mem_bumpCount_keys, List.map_cons, List.mem_cons]
    tauto

theorem mem_keys_chordCounts {chords : List (List Char)} {r : List Char} :
    r ∈ (chordCounts chords).map Prod.fst ↔
      r ∈ chords.map (fun c => (parseChord c).root) := by
  rw [chordCounts, mem_keys_foldl_bump]
  simp

theorem foldl_bump_ne_nil :
    ∀ (l : List (List Char)) (acc : List (List Char × Nat)),
      acc ≠ [] ∨ l ≠ [] →
      l.foldl (fun acc chord => bumpCount acc (parseChord chord).root) acc ≠ [] := by
  intro l
  induction l with
  | nil =>
    intro acc h
    simp only [List.foldl_nil]
    rcases h with h | h
    · exact h
    · exact absurd rfl h
  | cons a t ih =>
    intro acc _
    rw [List.foldl_cons]
    exact ih _ (Or.inl (bumpCount_ne_nil acc (parseChord a).root))

theorem chordCounts_ne_nil {chords : List (List Char)} (h : chords ≠ []) :
    chordCounts chords ≠ [] :=
  foldl_bump_ne_nil chords [] (Or.inr h)

theorem mem_sortedRoots {chords : List (List Char)} {r : List Char} :
    r ∈ sortedRoots chords ↔ r ∈ chords.map (fun c => (parseChord c).root) := by
  rw [sortedRoots, ← mem_keys_chordCounts]
  exact ((List.perm_insertionSort countGE (chordCounts chords)).map Prod.fst).mem_iff

theorem sortedRoots_ne_nil {chords : List (List Char)} (h : chords ≠ []) :
    sortedRoots chords ≠ [] := by
  rw [sortedRoots]
  intro hc
  apply chordCounts_ne_nil h
  have := (List.perm_insertionSort countGE (chordCounts chords)).length_eq
  rw [List.map_eq_nil_iff] at hc
  rw [hc] at this
  exact List.length_eq_zero.mp this.symm

/-- Extension property of the deduplication fold: the accumulator is only ever
appended to. -/
theorem dedupe_foldl_prefix :
    ∀ (t : List (List Char)) (acc : List (List Char)),
      ∃ s, t.foldl (fun acc k => if acc.contains k then acc else acc ++ [k]) acc =
        acc ++ s := by
  intro t
  induction t with
  | nil => exact fun acc => ⟨[], by simp⟩
  | cons a t ih =>
    intro acc
    rw [List.foldl_cons]
    by_cases h : acc.contains a
    · rw [if_pos h]; exact ih acc
    · rw [if_neg h]
      obtain ⟨s, hs⟩ := ih (acc ++ [a])
      exact ⟨a :: s, by rw [hs]; simp⟩

theorem dedupeKeys_cons_head (h : List Char) (t : List (List Char)) :
    ∃ s, dedupeKeys (h :: t) = h :: s := by
  rw [dedupeKeys, List.foldl_cons]
  have : (if ([] : List (List Char)).contains h then ([] : List (List Char)) else [] ++ [h]) = [h] := by
    simp
  rw [this]
  obtain ⟨s, hs⟩ := dedupe_foldl_prefix t [h]
  exact ⟨s, by rw [hs]; rfl⟩

/-- The unique major-key name of pitch class `i` (the key tables bind exactly
one major and one minor key to every pitch class). -/
def majorName (i : Nat) : List Char :=
  ((MAJOR_KEYS.filter fun k => k.index = i).map KeySig.name).headD "C".data

/-- The unique minor-key name of pitch class `i`. -/
def minorName (i : Nat) : List Char :=
  ((MINOR_KEYS.filter fun k => k.index = i).map KeySig.name).headD "C".data

theorem keysFor_eq_fin :
    ∀ i : Fin 12, keysFor i.val = [majorName i.val, minorName i.val] := by decide

/-- The four pitch classes whose major-key name is flat-spelled (`Db`, `Eb`,
`Ab`, `Bb`); for these the minor-table lookup of `chooseDetected` finds no
entry, because `MINOR_KEYS` names are sharp-spelled. -/
theorem chooseDetected_majorName_fin :
    ∀ i : Fin 12,
      (if (majorName i.val).getLast? = some 'm' then majorName i.val
       else
         match MINOR_KEYS.find?
             (fun k => some (majorName i.val) = some (removeFirst 'm' k.name)) with
         | some minorVersion => minorVersion.name
         | none => majorName i.val) =
      if i.val ∈ ([1, 3, 8, 10] : List Nat) then majorName i.val
      else minorName i.val := by decide

theorem chooseDetected_allMinor (h : List Char) (rest : List (List Char)) :
    chooseDetected true false (h :: rest) =
      (if h.getLast? = some 'm' then h
       else
         match MINOR_KEYS.find? (fun k => some h = some (removeFirst 'm' k.name)) with
         | some minorVersion => minorVersion.name
         | none => h) := by
  simp [chooseDetected]

theorem chooseDetected_notMinor (hasMin hasMaj : Bool) (pk : List (List Char))
    (h : (hasMin && !hasMaj) = false) :
    chooseDetected hasMin hasMaj pk = pk.headD "C".data := by
  simp [chooseDetected, h]

theorem dedupe_take_headD (pk : List (List Char)) :
    ((dedupeKeys pk).take 5).headD "C".data = pk.headD "C".data := by
  cases pk with
  | nil => rfl
  | cons h t =>
    obtain ⟨s, hs⟩ := dedupeKeys_cons_head h t
    rw [hs]
    rfl

theorem majorSignal_eq_not_minorSignal (c : List Char) :
    majorSignal c = !minorSignal c := by
  simp [majorSignal, minorSignal]

theorem possibleKeysOf_cons_ok {chords : List (List Char)} {r0 : List Char}
    {rest : List (List Char)} {i : Nat} {ys : List (List (List Char))}
    (hs : sortedRoots chords = r0 :: rest)
    (hi : getNoteIndex r0 = .ok i)
    (hys : mapME keysForRoot rest = .ok ys) :
    possibleKeysOf chords = .ok (keysFor i ++ ys.flatten) := by
  unfold possibleKeysOf
  rw [hs, mapME_cons, keysForRoot_ok hi, hys]
  rfl

theorem possibleKeysOf_error {chords : List (List Char)} {e : List Char}
    (h : mapME keysForRoot (sortedRoots chords) = .error e) :
    possibleKeysOf chords = .error e := by
  unfold possibleKeysOf
  rw [h]
  rfl

theorem detectKey_eq_of_ok {chords : List (List Char)} {pk : List (List Char)}
    (hne : chords ≠ []) (hpk : possibleKeysOf chords = .ok pk) :
    detectKey chords = .ok
      ⟨chooseDetected (chords.any minorSignal) (chords.any majorSignal) pk,
       confidenceOf chords.length, (dedupeKeys pk).take 5⟩ := by
  unfold detectKey
  rw [if_neg hne, hpk]
  rfl

theorem detectKey_ok_inv {chords : List (List Char)} {r : KeyDetectionResult}
    (hne : chords ≠ []) (h : detectKey chords = .ok r) :
    ∃ pk, possibleKeysOf chords = .ok pk ∧
      r = ⟨chooseDetected (chords.any minorSignal) (chords.any majorSignal) pk,
           confidenceOf chords.length, (dedupeKeys pk).take 5⟩ := by
  unfold detectKey at h
  rw [if_neg hne] at h
  cases hpk : possibleKeysOf chords with
  | error e => rw [hpk] at h; cases h
  | ok pk =>
    rw [hpk] at h
    cases h
    exact ⟨pk, rfl, rfl⟩

-- ---------------------------------------------------------------------------
-- Claim C10
-- ---------------------------------------------------------------------------

/-- C10: `detectKey` is not total: if some token's parsed root is rejected by
the pitch-class lookup, `detectKey` propagates the invalid-note error instead
of returning a `KeyDetectionResult`. -/
theorem C10_detectKey_throws_on_bad_root (chords : List (List Char))
    (c : List Char) (hmem : c ∈ chords)
    (hbad : exOk (getNoteIndex (parseChord c).root) = false) :
    ∃ note, detectKey chords = .error (invalidNoteMsg note) := by
  have hne : chords ≠ [] := List.ne_nil_of_mem hmem
  have hroot : (parseChord c).root ∈ sortedRoots chords :=
    mem_sortedRoots.mpr (List.mem_map.mpr ⟨c, hmem, rfl⟩)
  obtain ⟨note, hnote⟩ := mapME_keysForRoot_error _ ⟨_, hroot, hbad⟩
  refine ⟨note, ?_⟩
  unfold detectKey
  rw [if_neg hne, possibleKeysOf_error hnote]
  rfl

/-- Witness for C10: a token whose first character is not `A`–`G` makes
`detectKey` throw. -/
theorem C10_detectKey_throws_on_bad_root_witness :
    ∃ note, detectKey ["H".data] = .error (invalidNoteMsg note) :=
  C10_detectKey_throws_on_bad_root ["H".data] "H".data (by decide) (by decide)

-- ---------------------------------------------------------------------------
-- Claim C9
-- ---------------------------------------------------------------------------

/-- C9: whenever `detectKey` returns on a non-empty chord list, its confidence
depends on the list length only — `high` above 10, `medium` above 5, `low`
otherwise; and the 8-chord scenario returns detectedKey `C`, confidence
`medium`, with `C` and `Am` among the possible keys. -/
theorem C9_confidence_bands :
    (∀ (chords : List (List Char)) (r : KeyDetectionResult),
      detectKey chords = .ok r → chords ≠ [] →
      r.confidence =
        if 10 < chords.length then Confidence.high
        else if 5 < chords.length then Confidence.medium
        else Confidence.low) ∧
    (∃ r, detectKey ["C".data, "Am".data, "F".data, "G".data,
        "C".data, "Am".data, "F".data, "G".data] = .ok r ∧
      r.detectedKey = "C".data ∧ r.confidence = Confidence.medium ∧
      "C".data ∈ r.possibleKeys ∧ "Am".data ∈ r.possibleKeys) := by
  constructor
  · intro chords r h hne
    obtain ⟨pk, _, hr⟩ := detectKey_ok_inv hne h
    rw [hr]
    rfl
  · exact ⟨⟨"C".data, Confidence.medium,
      ["C".data, "Cm".data, "A".data, "Am".data, "F".data]⟩, by decide⟩

/-- Witness for C9: the universal band rule applied at the concrete 8-chord
scenario. -/
theorem C9_confidence_bands_witness :
    (KeyDetectionResult.mk "C".data Confidence.medium
        ["C".data, "Cm".data, "A".data, "Am".data, "F".data]).confidence =
      if 10 < (["C".data, "Am".data, "F".data, "G".data,
          "C".data, "Am".data, "F".data, "G".data] : List (List Char)).length then
        Confidence.high
      else if 5 < (["C".data, "Am".data, "F".data, "G".data,
          "C".data, "Am".data, "F".data, "G".data] : List (List Char)).length then
        Confidence.medium
      else Confidence.low :=
  C9_confidence_bands.1
    ["C".data, "Am".data, "F".data, "G".data,
     "C".data, "Am".data, "F".data, "G".data]
    ⟨"C".data, Confidence.medium,
     ["C".data, "Cm".data, "A".data, "Am".data, "F".data]⟩
    (by decide) (by decide)

-- ---------------------------------------------------------------------------
-- Claim C6
-- ---------------------------------------------------------------------------

/-- C6 counterexample: for the all-minor input `["C#m"]` the top-ranked root
has pitch class 1, whose major-key spelling is the flat-named `Db`; the
minor-table lookup (which strips the `m` from the sharp-spelled minor names)
finds no entry equal to `Db`, so `detectKey` returns the *major* name `Db`
even though every chord signals minor — contradicting the claim that the
result carries the minor spelling. -/
theorem C6_counterexample_flat_major_name :
    detectKey ["C#m".data] =
      .ok ⟨"Db".data, Confidence.low, ["Db".data, "C#m".data]⟩ ∧
    minorSignal "C#m".data = true ∧
    ("Db".data).getLast? ≠ some 'm' ∧
    "Db".data ∈ MAJOR_KEYS.map KeySig.name ∧
    "Db".data ∉ MINOR_KEYS.map KeySig.name := by decide

/-- C6 (amended): on a non-empty list whose tokens all signal minor (and whose
roots all resolve), `detectKey` returns the minor-table name of the top-ranked
root's pitch class — except for the four pitch classes 1, 3, 8, 10 whose
major-key names are flat-spelled (`Db`, `Eb`, `Ab`, `Bb`), where the major
name is returned unchanged; in every other disposition the top-ranked
candidate is returned as is. -/
theorem C6_minor_disposition (chords : List (List Char)) :
    (∀ i : Nat, chords ≠ [] →
      (∀ c ∈ chords, exOk (getNoteIndex (parseChord c).root) = true) →
      getNoteIndex (topRoot chords) = .ok i →
      (∀ c ∈ chords, minorSignal c = true) →
      ∃ r, detectKey chords = .ok r ∧
        r.detectedKey =
          if i ∈ ([1, 3, 8, 10] : List Nat) then majorName i else minorName i) ∧
    (∀ r, detectKey chords = .ok r →
      (chords.any minorSignal && !(chords.any majorSignal)) = false →
      r.detectedKey = r.possibleKeys.headD "C".data) := by
  constructor
  · intro i hne hok htop hmin
    -- the sorted root list is non-empty and starts with the top root
    obtain ⟨r0, rest, hs⟩ := List.exists_cons_of_ne_nil (sortedRoots_ne_nil hne)
    have htop0 : topRoot chords = r0 := by rw [topRoot, hs]; rfl
    rw [htop0] at htop
    -- every remaining root resolves, so the tail of the flatMap succeeds
    have hrest : ∀ x ∈ rest, exOk (keysForRoot x) = true := by
      intro x hx
      have hxs : x ∈ sortedRoots chords := by rw [hs]; exact List.mem_cons_of_mem _ hx
      obtain ⟨c, hc, hcx⟩ := List.mem_map.mp (mem_sortedRoots.mp hxs)
      obtain ⟨j, hj⟩ := exOk_iff.mp (hcx ▸ hok c hc)
      rw [keysForRoot_ok hj]
      rfl
    obtain ⟨ys, hys⟩ := mapME_ok_of_forall keysForRoot rest hrest
    have hpk : possibleKeysOf chords =
        .ok (keysFor i ++ ys.flatten) := possibleKeysOf_cons_ok hs htop hys
    -- hasMinor is true, hasMajor is false
    have hanymin : chords.any minorSignal = true := by
      obtain ⟨c0, cs, rfl⟩ := List.exists_cons_of_ne_nil hne
      exact List.any_eq_true.mpr ⟨c0, by simp, hmin c0 (by simp)⟩
    have hanymaj : chords.any majorSignal = false := by
      rw [List.any_eq_false]
      intro c hc
      rw [majorSignal_eq_not_minorSignal, hmin c hc]
      simp
    -- the head of the candidate list is the major name of the top pitch class
    have hilt : i < 12 := getNoteIndex_lt htop
    have hkeys : keysFor i = [majorName i, minorName i] := keysFor_eq_fin ⟨i, hilt⟩
    refine ⟨_, detectKey_eq_of_ok hne hpk, ?_⟩
    rw [hanymin, hanymaj, hkeys]
    rw [show ([majorName i, minorName i] ++ ys.flatten) =
      majorName i :: (minorName i :: ys.flatten) from rfl]
    rw [chooseDetected_allMinor]
    exact chooseDetected_majorName_fin ⟨i, hilt⟩
  · intro r h hnm
    by_cases hne : chords = []
    · subst hne
      unfold detectKey at h
      rw [if_pos rfl] at h
      cases h
      rfl
    · obtain ⟨pk, _, hr⟩ := detectKey_ok_inv hne h
      rw [hr]
      show chooseDetected (chords.any minorSignal) (chords.any majorSignal) pk =
        ((dedupeKeys pk).take 5).headD "C".data
      rw [chooseDetected_notMinor _ _ _ hnm, dedupe_take_headD]

/-- Witness for C6: the all-minor input `["Am"]` has top pitch class 9, not
flat-named, and `detectKey` returns the minor name `Am`. -/
theorem C6_minor_disposition_witness :
    ∃ r, detectKey ["Am".data] = .ok r ∧
      r.detectedKey =
        if (9 : Nat) ∈ ([1, 3, 8, 10] : List Nat) then majorName 9
        else minorName 9 :=
  (C6_minor_disposition ["Am".data]).1 9 (by decide) (by decide) (by decide)
    (by decide)

-- ---------------------------------------------------------------------------
-- Round-trip machinery (claim C4)
-- ---------------------------------------------------------------------------

theorem isNoteLetter_not_ws {c : Char} (h : isNoteLetter c = true) :
    isWS c = false := by
  cases hw : isWS c
  · rfl
  · exfalso
    simp only [isWS, Bool.or_eq_true, decide_eq_true_eq] at hw
    rcases hw with ((((rfl | rfl) | rfl) | rfl) | rfl) | rfl <;>
      simp [isNoteLetter] at h

theorem isNoteLetter_not_lineTerm {c : Char} (h : isNoteLetter c = true) :
    isLineTerm c = false := by
  cases hw : isLineTerm c
  · rfl
  · exfalso
    simp only [isLineTerm, Bool.or_eq_true, decide_eq_true_eq] at hw
    rcases hw with ((rfl | rfl) | rfl) | rfl <;> simp [isNoteLetter] at h

theorem head_dropWhile_not (p : Char → Bool) :
    ∀ l : List Char, ∀ c ∈ (l.dropWhile p).head?, p c = false := by
  intro l
  induction l with
  | nil => intro c h; cases h
  | cons a t ih =>
    intro c h
    rw [List.dropWhile_cons] at h
    split at h
    · exact ih c h
    · next hp =>
      simp only [List.head?_cons, Option.mem_def, Option.some.injEq] at h
      rw [← h]
      exact Bool.not_eq_true _ ▸ Bool.of_not_eq_true hp

theorem dropWhile_eq_self_of_head (p : Char → Bool) (l : List Char)
    (h : ∀ c ∈ l.head?, p c = false) : l.dropWhile p = l := by
  cases l with
  | nil => rfl
  | cons a t =>
    rw [List.dropWhile_cons, if_neg]
    rw [h a (by simp)]
    simp

/-- A prefix of a list: `trimRight l <+: l`. -/
theorem trimRight_prefix (l : List Char) : trimRight l <+: l := by
  have h : (l.reverse.dropWhile isWS).reverse <+: l.reverse.reverse :=
    List.reverse_prefix.mpr (List.dropWhile_suffix isWS)
  rwa [List.reverse_reverse] at h

theorem trim_head_not_ws (l : List Char) :
    ∀ c ∈ (trim l).head?, isWS c = false := by
  intro c hc
  rw [trim] at hc
  obtain ⟨t, ht⟩ := trimRight_prefix (l.dropWhile isWS)
  apply head_dropWhile_not isWS l
  rw [← ht]
  cases htr : trimRight (l.dropWhile isWS) with
  | nil => rw [htr] at hc; cases hc
  | cons x xs =>
    rw [htr] at hc
    simp only [List.cons_append, List.head?_cons, Option.mem_def, Option.some.injEq] at hc ⊢
    exact hc

theorem trim_last_not_ws (l : List Char) :
    ∀ c ∈ (trim l).getLast?, isWS c = false := by
  intro c hc
  rw [trim, trimRight, List.getLast?_reverse] at hc
  exact head_dropWhile_not isWS _ c hc

theorem trim_eq_self {l : List Char}
    (h1 : ∀ c ∈ l.head?, isWS c = false)
    (h2 : ∀ c ∈ l.getLast?, isWS c = false) : trim l = l := by
  rw [trim, dropWhile_eq_self_of_head isWS l h1, trimRight,
    dropWhile_eq_self_of_head isWS l.reverse (by
      intro c hc
      rw [List.head?_reverse] at hc
      exact h2 c hc),
    List.reverse_reverse]

/-- Shape of a sharp-table spelling: a note letter, optionally followed by
`#`. -/
def sharpShape (n : List Char) : Bool :=
  match n with
  | [c] => isNoteLetter c
  | [c, h] => isNoteLetter c && h = '#'
  | _ => false

theorem sharpShape_table :
    ∀ j : Fin 12, sharpShape (SHARP_NOTES.getD j.val []) = true := by decide

theorem getNoteIndex_table :
    ∀ j : Fin 12, getNoteIndex (SHARP_NOTES.getD j.val []) = .ok j.val := by decide

theorem shiftIdx_facts :
    ∀ (i : Fin 12) (n : Fin 25),
      shiftIdx i.val ((n.val : Int) - 12) < 12 ∧
      shiftIdx (shiftIdx i.val ((n.val : Int) - 12)) (-((n.val : Int) - 12)) =
        i.val := by decide

theorem shiftIdx_lt {i : Nat} (hi : i < 12) {N : Int}
    (h1 : -12 ≤ N) (h2 : N ≤ 12) : shiftIdx i N < 12 := by
  have hk : ((N + 12).toNat : Int) = N + 12 := Int.toNat_of_nonneg (by omega)
  have hk25 : (N + 12).toNat < 25 := by omega
  have := (shiftIdx_facts ⟨i, hi⟩ ⟨(N + 12).toNat, hk25⟩).1
  simp only at this
  rwa [show (((N + 12).toNat : Int) - 12) = N by omega] at this

theorem shiftIdx_roundtrip {i : Nat} (hi : i < 12) {N : Int}
    (h1 : -12 ≤ N) (h2 : N ≤ 12) : shiftIdx (shiftIdx i N) (-N) = i := by
  have hk : ((N + 12).toNat : Int) = N + 12 := Int.toNat_of_nonneg (by omega)
  have hk25 : (N + 12).toNat < 25 := by omega
  have := (shiftIdx_facts ⟨i, hi⟩ ⟨(N + 12).toNat, hk25⟩).2
  simp only at this
  rwa [show (((N + 12).toNat : Int) - 12) = N by omega] at this

theorem transposeNote_ok {note : List Char} {i : Nat}
    (h : getNoteIndex note = .ok i) (N : Int) :
    transposeNote note N false = .ok (SHARP_NOTES.getD (shiftIdx i N) []) := by
  unfold transposeNote
  rw [h]
  rfl

-- splitBass on a reconstructed remainder

theorem validBass3_mid_slash (a0 x : Char) :
    validBass3 [a0, '/', x] = false := by
  simp [validBass3, isNoteLetter]

theorem splitBass_append_bass1 (q : List Char) {x : Char}
    (hx : isNoteLetter x = true) :
    splitBass (q ++ ['/', x]) = (q, some [x]) := by
  rcases List.eq_nil_or_concat q with rfl | ⟨q', a0, rfl⟩
  · simp [splitBass, validBass2, validBass3, hx]
  · simp only [List.concat_eq_append]
    have e3 : (q' ++ [a0] ++ ['/', x]).drop ((q' ++ [a0] ++ ['/', x]).length - 3) =
        [a0, '/', x] := by
      rw [List.append_assoc]
      have : (q' ++ ([a0] ++ ['/', x])).length - 3 = q'.length := by simp
      rw [this]
      exact List.drop_left q' _
    have e2 : (q' ++ [a0] ++ ['/', x]).drop ((q' ++ [a0] ++ ['/', x]).length - 2) =
        ['/', x] := by
      have : (q' ++ [a0] ++ ['/', x]).length - 2 = (q' ++ [a0]).length := by simp
      rw [this]
      exact List.drop_left _ _
    have e1 : (q' ++ [a0] ++ ['/', x]).drop ((q' ++ [a0] ++ ['/', x]).length - 1) =
        [x] := by
      have : (q' ++ [a0] ++ ['/', x]).length - 1 = (q' ++ [a0] ++ ['/']).length := by
        simp
      rw [this, show q' ++ [a0] ++ ['/', x] = (q' ++ [a0] ++ ['/']) ++ [x] by simp]
      exact List.drop_left _ _
    have et : (q' ++ [a0] ++ ['/', x]).take ((q' ++ [a0] ++ ['/', x]).length - 2) =
        q' ++ [a0] := by
      have : (q' ++ [a0] ++ ['/', x]).length - 2 = (q' ++ [a0]).length := by simp
      rw [this]
      exact List.take_left _ _
    rw [splitBass, e3, validBass3_mid_slash, e2, et, e1]
    simp [validBass2, hx]

theorem splitBass_append_bass2 (q : List Char) {x a : Char}
    (hx : isNoteLetter x = true) (ha : isAccidental a = true) :
    splitBass (q ++ ['/', x, a]) = (q, some [x, a]) := by
  have e3 : (q ++ ['/', x, a]).drop ((q ++ ['/', x, a]).length - 3) = ['/', x, a] := by
    have : (q ++ ['/', x, a]).length - 3 = q.length := by simp
    rw [this]
    exact List.drop_left _ _
  have e2 : (q ++ ['/', x, a]).drop ((q ++ ['/', x, a]).length - 2) = [x, a] := by
    have : (q ++ ['/', x, a]).length - 2 = (q ++ ['/']).length := by simp
    rw [this, show q ++ ['/', x, a] = (q ++ ['/']) ++ [x, a] by simp]
    exact List.drop_left _ _
  have et : (q ++ ['/', x, a]).take ((q ++ ['/', x, a]).length - 3) = q := by
    have : (q ++ ['/', x, a]).length - 3 = q.length := by simp
    rw [this]
    exact List.take_left _ _
  rw [splitBass, e3, et, e2]
  simp [validBass3, hx, ha]

theorem splitBass_none {rest : List Char} (h : (splitBass rest).2 = none) :
    splitBass rest = (rest, none) := by
  rw [splitBass] at h ⊢
  split at h
  · cases h
  · split at h
    · cases h
    · next h1 h2 => rw [if_neg h1, if_neg h2]

theorem splitBass_fst_take (rest : List Char) :
    ∃ k, (splitBass rest).1 = rest.take k := by
  rw [splitBass]
  split
  · exact ⟨rest.length - 3, rfl⟩
  · split
    · exact ⟨rest.length - 2, rfl⟩
    · exact ⟨rest.length, (List.take_length rest).symm⟩

/-- The chord string rebuilt by `transposeChord`
(`newRoot + quality [+ '/' + newBass]`). -/
def reconstruct (r q : List Char) (b : Option (List Char)) : List Char :=
  match b with
  | some bb => r ++ q ++ '/' :: bb
  | none => r ++ q

theorem sharpShape_cases {r : List Char} (h : sharpShape r = true) :
    (∃ c, r = [c] ∧ isNoteLetter c = true) ∨
    (∃ c, r = [c, '#'] ∧ isNoteLetter c = true) := by
  match r, h with
  | [c], h =>
    exact Or.inl ⟨c, rfl, by simpa [sharpShape] using h⟩
  | [c, a], h =>
    have h' := h
    simp only [sharpShape, Bool.and_eq_true, decide_eq_true_eq] at h'
    exact Or.inr ⟨c, by rw [h'.2], h'.1⟩

/-- Evaluation of `parseChord` when the trimmed text starts with a note
letter, the accidental is part of the root, and the remainder has no line
terminator: the regex matches and the quality/bass split applies. -/
theorem parseChord_matched {chord : List Char} {c : Char} {cs root rest : List Char}
    (htrim : trim chord = c :: cs) (hc : isNoteLetter c = true)
    (hroot : rootSplit c cs = (root, rest))
    (hlt : rest.any isLineTerm = false) :
    parseChord chord = ⟨root, (splitBass rest).1, (splitBass rest).2⟩ := by
  unfold parseChord
  rw [htrim]
  simp only [hc, if_true, hroot, hlt]
  simp

theorem parseChord_reconstruct_core (r q bstr : List Char)
    (hr : sharpShape r = true)
    (hq1 : ∀ a ∈ q.head?, isAccidental a = false)
    (hq2 : q.any isLineTerm = false)
    (hbstr_head : bstr = [] ∨ ∃ t, bstr = '/' :: t)
    (hbstr_lt : bstr.any isLineTerm = false)
    (hlast : ∀ a ∈ (r ++ (q ++ bstr)).getLast?, isWS a = false) :
    parseChord (r ++ (q ++ bstr)) =
      ⟨r, (splitBass (q ++ bstr)).1, (splitBass (q ++ bstr)).2⟩ := by
  have hhead : ∀ a ∈ (r ++ (q ++ bstr)).head?, isWS a = false := by
    rcases sharpShape_cases hr with ⟨c, rfl, hc⟩ | ⟨c, rfl, hc⟩ <;>
      · intro a ha
        simp only [List.cons_append, List.nil_append, List.head?_cons,
          Option.mem_def, Option.some.injEq] at ha
        rw [← ha]
        exact isNoteLetter_not_ws hc
  have htrim : trim (r ++ (q ++ bstr)) = r ++ (q ++ bstr) :=
    trim_eq_self hhead hlast
  have hlt : (q ++ bstr).any isLineTerm = false := by
    rw [List.any_append, hq2, hbstr_lt]
    rfl
  rcases sharpShape_cases hr with ⟨c, rfl, hc⟩ | ⟨c, rfl, hc⟩
  · have htrim' : trim ([c] ++ (q ++ bstr)) = c :: (q ++ bstr) := by
      rw [htrim]; rfl
    have hroot : rootSplit c (q ++ bstr) = ([c], q ++ bstr) := by
      cases q with
      | cons a q2 =>
        have ha := hq1 a (by simp)
        simp [rootSplit, ha]
      | nil =>
        rcases hbstr_head with rfl | ⟨t, rfl⟩
        · rfl
        · rfl
    exact parseChord_matched htrim' hc hroot hlt
  · have htrim' : trim ([c, '#'] ++ (q ++ bstr)) = c :: ('#' :: (q ++ bstr)) := by
      rw [htrim]; rfl
    have hroot : rootSplit c ('#' :: (q ++ bstr)) = ([c, '#'], q ++ bstr) := rfl
    exact parseChord_matched htrim' hc hroot hlt

theorem parseChord_reconstruct (r q : List Char) (b : Option (List Char))
    (hr : sharpShape r = true)
    (hq1 : ∀ a ∈ q.head?, isAccidental a = false)
    (hq2 : q.any isLineTerm = false)
    (hq3 : b = none → splitBass q = (q, none))
    (hq4 : b = none → ∀ a ∈ q.getLast?, isWS a = false)
    (hb : ∀ bb ∈ b, sharpShape bb = true) :
    parseChord (reconstruct r q b) = ⟨r, q, b⟩ := by
  rcases b with _ | bb
  · have hlast : ∀ a ∈ (r ++ (q ++ [])).getLast?, isWS a = false := by
      rw [List.append_nil]
      cases hq : q with
      | nil =>
        rw [List.append_nil]
        rcases sharpShape_cases hr with ⟨c, rfl, hc⟩ | ⟨c, rfl, hc⟩
        · intro a ha
          simp only [List.getLast?_singleton, Option.mem_def, Option.some.injEq] at ha
          rw [← ha]
          exact isNoteLetter_not_ws hc
        · intro a ha
          simp only [Option.mem_def] at ha
          have : ([c, '#'] : List Char).getLast? = some '#' := rfl
          rw [this, Option.some.injEq] at ha
          rw [← ha]
          rfl
      | cons a' q2 =>
        rw [List.getLast?_append_of_ne_nil r (by simp), ← hq]
        exact hq4 rfl
    have hcore := parseChord_reconstruct_core r q [] hr hq1 hq2 (Or.inl rfl) rfl hlast
    rw [List.append_nil] at hcore
    rw [show reconstruct r q none = r ++ q from rfl, hcore, hq3 rfl]
  · rcases sharpShape_cases (hb bb rfl) with ⟨x, rfl, hx⟩ | ⟨x, rfl, hx⟩
    · have hlast : ∀ a ∈ (r ++ (q ++ ['/', x])).getLast?, isWS a = false := by
        rw [List.getLast?_append_of_ne_nil r (by simp),
          List.getLast?_append_of_ne_nil q (by simp)]
        intro a ha
        have : (['/', x] : List Char).getLast? = some x := rfl
        rw [this, Option.mem_def, Option.some.injEq] at ha
        rw [← ha]
        exact isNoteLetter_not_ws hx
      have hblt : (['/', x] : List Char).any isLineTerm = false := by
        rw [List.any_cons, List.any_cons, List.any_nil,
          isNoteLetter_not_lineTerm hx]
        decide
      have hcore := parseChord_reconstruct_core r q ['/', x] hr hq1 hq2
        (Or.inr ⟨[x], rfl⟩) hblt hlast
      rw [splitBass_append_bass1 q hx] at hcore
      simpa [reconstruct] using hcore
    · have hlast : ∀ a ∈ (r ++ (q ++ ['/', x, '#'])).getLast?, isWS a = false := by
        rw [List.getLast?_append_of_ne_nil r (by simp),
          List.getLast?_append_of_ne_nil q (by simp)]
        intro a ha
        have : (['/', x, '#'] : List Char).getLast? = some '#' := rfl
        rw [this, Option.mem_def, Option.some.injEq] at ha
        rw [← ha]
        rfl
      have hblt : (['/', x, '#'] : List Char).any isLineTerm = false := by
        rw [List.any_cons, List.any_cons, List.any_cons, List.any_nil,
          isNoteLetter_not_lineTerm hx]
        decide
      have hcore := parseChord_reconstruct_core r q ['/', x, '#'] hr hq1 hq2
        (Or.inr ⟨[x, '#'], rfl⟩) hblt hlast
      rw [splitBass_append_bass2 q hx (by rfl)] at hcore
      simpa [reconstruct] using hcore

theorem rootSplit_append (c : Char) (cs : List Char) :
    c :: cs = (rootSplit c cs).1 ++ (rootSplit c cs).2 := by
  cases cs with
  | nil => rfl
  | cons a cs' =>
    by_cases ha : isAccidental a = true
    · simp [rootSplit, ha]
    · simp [rootSplit, ha]

theorem any_take_false {p : Char → Bool} {l : List Char}
    (h : l.any p = false) (k : Nat) : (l.take k).any p = false := by
  rw [List.any_eq_false] at h ⊢
  intro x hx
  exact h x (List.take_subset k l hx)

/-- Properties of the quality component of any parse, needed to re-parse the
reassembled chord: the quality contains no line terminator; when there is no
bass, the quality contains no bass split itself and does not end in
whitespace. -/
theorem parseChord_quality_props (chord : List Char) :
    (parseChord chord).quality.any isLineTerm = false ∧
    ((parseChord chord).bass = none →
      splitBass (parseChord chord).quality = ((parseChord chord).quality, none)) ∧
    ((parseChord chord).bass = none →
      ∀ a ∈ (parseChord chord).quality.getLast?, isWS a = false) := by
  unfold parseChord
  cases htrim : trim chord with
  | nil =>
    exact ⟨rfl, fun _ => rfl, fun _ a ha => by cases ha⟩
  | cons c cs =>
    dsimp only
    by_cases hc : isNoteLetter c = true
    · rw [if_pos hc]
      by_cases hlt : (rootSplit c cs).2.any isLineTerm = true
      · rw [if_pos hlt]
        exact ⟨rfl, fun _ => rfl, fun _ a ha => by cases ha⟩
      · rw [if_neg hlt]
        rw [Bool.not_eq_true] at hlt
        refine ⟨?_, ?_, ?_⟩
        · obtain ⟨k, hk⟩ := splitBass_fst_take (rootSplit c cs).2
          rw [hk]
          exact any_take_false hlt k
        · intro hbn
          dsimp only at hbn ⊢
          have h0 := splitBass_none hbn
          rw [h0]
          exact h0
        · intro hbn a ha
          rw [splitBass_none hbn] at ha
          simp only at ha
          -- the quality is the whole rest, whose last char is the last of the
          -- trimmed chord
          rcases hrest : (rootSplit c cs).2 with _ | ⟨x, xs⟩
          · rw [hrest] at ha; cases ha
          · rw [hrest] at ha
            apply trim_last_not_ws chord
            rw [htrim, rootSplit_append c cs, hrest,
              List.getLast?_append_of_ne_nil _ (by simp)]
            exact ha
    · rw [if_neg hc]
      exact ⟨rfl, fun _ => rfl, fun _ a ha => by cases ha⟩

theorem dropWhile_eq_nil_all {p : Char → Bool} {l : List Char}
    (h : l.dropWhile p = []) : ∀ x ∈ l, p x = true := by
  intro x hx
  induction l with
  | nil => cases hx
  | cons a t ih =>
    rw [List.dropWhile_cons] at h
    split at h
    · next hp =>
      rcases List.mem_cons.mp hx with rfl | hxt
      · exact hp
      · exact ih h hxt
    · cases h

theorem trim_ne_nil_of_head {l : List Char} {c : Char} (hc : isWS c = false)
    (hl : l.head? = some c) : trim l ≠ [] := by
  intro h
  have hd : l.dropWhile isWS = l := by
    apply dropWhile_eq_self_of_head
    intro a ha
    rw [hl] at ha
    simp only [Option.mem_def, Option.some.injEq] at ha
    rw [← ha]
    exact hc
  rw [trim, hd, trimRight, List.reverse_eq_nil_iff] at h
  have hcmem : c ∈ l.reverse := by
    rw [List.mem_reverse]
    exact List.mem_of_mem_head? hl
  have := dropWhile_eq_nil_all h c hcmem
  rw [hc] at this
  cases this

theorem reconstruct_trim_ne_nil {r : List Char} (q : List Char)
    (b : Option (List Char)) (hr : sharpShape r = true) :
    trim (reconstruct r q b) ≠ [] := by
  rcases sharpShape_cases hr with ⟨c, rfl, hc⟩ | ⟨c, rfl, hc⟩ <;>
    rcases b with _ | bb <;>
    exact trim_ne_nil_of_head (isNoteLetter_not_ws hc) rfl

theorem transposeChord_eval_none {chord : List Char} {N : Int} {i : Nat}
    (hN : ¬N = 0) (hblank : ¬trim chord = [])
    (hroot : getNoteIndex (parseChord chord).root = .ok i)
    (hbass : (parseChord chord).bass = none) :
    transposeChord chord N false =
      .ok (reconstruct (SHARP_NOTES.getD (shiftIdx i N) [])
        (parseChord chord).quality none) := by
  unfold transposeChord
  dsimp only
  rw [if_neg (by simp [hN, hblank])]
  rw [transposeNote_ok hroot, hbass]
  rfl

theorem transposeChord_eval_some {chord : List Char} {N : Int} {i j : Nat}
    {bb : List Char}
    (hN : ¬N = 0) (hblank : ¬trim chord = [])
    (hroot : getNoteIndex (parseChord chord).root = .ok i)
    (hbass : (parseChord chord).bass = some bb)
    (hj : getNoteIndex bb = .ok j) :
    transposeChord chord N false =
      .ok (reconstruct (SHARP_NOTES.getD (shiftIdx i N) [])
        (parseChord chord).quality
        (some (SHARP_NOTES.getD (shiftIdx j N) []))) := by
  unfold transposeChord
  dsimp only
  rw [if_neg (by simp [hN, hblank])]
  rw [transposeNote_ok hroot, hbass]
  show Except.bind (transposeNote bb N false) _ = _
  rw [transposeNote_ok hj]
  rfl

-- ---------------------------------------------------------------------------
-- Claim C4
-- ---------------------------------------------------------------------------

/-- C4 counterexample: `"C##"` is non-blank, its parsed root `C#` is a
recognized spelling (pitch class 1) and it has no bass, yet the round trip
with `N = 1` loses a pitch class: the quality `#` fuses with the transposed
one-character root (`D` + `#` reads back as root `D#`), so the round trip
ends at root `D` (pitch class 2), not pitch class 1. -/
theorem C4_counterexample_accidental_quality :
    trim "C##".data ≠ [] ∧
    (parseChord "C##".data) = ⟨"C#".data, "#".data, none⟩ ∧
    getNoteIndex "C#".data = .ok 1 ∧
    transposeChord "C##".data 1 false = .ok "D#".data ∧
    transposeChord "D#".data (-1) false = .ok "D".data ∧
    getNoteIndex (parseChord "D".data).root = .ok 2 := by decide

/-- C4 (amended): for every non-blank chord whose parsed root (and bass, if
present) is accepted by the note lookup and whose parsed quality does not
start with an accidental character (`#`/`b`), and every `N ∈ [-12, 12]`, the
round trip `transposeChord (transposeChord c N) (-N)` succeeds and preserves
the pitch class of the root, and of the bass when present. -/
theorem C4_roundtrip_amended (c : List Char) (N : Int) (i : Nat)
    (hblank : trim c ≠ [])
    (hN1 : -12 ≤ N) (hN2 : N ≤ 12)
    (hroot : getNoteIndex (parseChord c).root = .ok i)
    (hbass : ∀ bb ∈ (parseChord c).bass, exOk (getNoteIndex bb) = true)
    (hqual : ∀ a ∈ (parseChord c).quality.head?, isAccidental a = false) :
    ∃ c1 c2, transposeChord c N false = .ok c1 ∧
      transposeChord c1 (-N) false = .ok c2 ∧
      getNoteIndex (parseChord c2).root = getNoteIndex (parseChord c).root ∧
      (parseChord c2).bass.map getNoteIndex =
        (parseChord c).bass.map getNoteIndex := by
  by_cases hN : N = 0
  · subst hN
    exact ⟨c, c, by simp [transposeChord], by simp [transposeChord], rfl, rfl⟩
  · have hNneg : ¬(-N) = 0 := by omega
    have hNneg1 : -12 ≤ -N := by omega
    have hNneg2 : -N ≤ 12 := by omega
    have hi12 : i < 12 := getNoteIndex_lt hroot
    have hi12' : shiftIdx i N < 12 := shiftIdx_lt hi12 hN1 hN2
    obtain ⟨hq2, hq3, hq4⟩ := parseChord_quality_props c
    have hsh1 : sharpShape (SHARP_NOTES.getD (shiftIdx i N) []) = true :=
      sharpShape_table ⟨shiftIdx i N, hi12'⟩
    have hgn1 : getNoteIndex (SHARP_NOTES.getD (shiftIdx i N) []) =
        .ok (shiftIdx i N) := getNoteIndex_table ⟨shiftIdx i N, hi12'⟩
    have hrt : shiftIdx (shiftIdx i N) (-N) = i := shiftIdx_roundtrip hi12 hN1 hN2
    have hsh2 : sharpShape (SHARP_NOTES.getD i []) = true :=
      sharpShape_table ⟨i, hi12⟩
    have hgn2 : getNoteIndex (SHARP_NOTES.getD i []) = .ok i :=
      getNoteIndex_table ⟨i, hi12⟩
    cases hb : (parseChord c).bass with
    | none =>
      -- forward transposition
      have h1 := transposeChord_eval_none hN hblank hroot hb
      -- re-parse of the transposed chord
      have hp1 : parseChord (reconstruct (SHARP_NOTES.getD (shiftIdx i N) [])
          (parseChord c).quality none) =
          ⟨SHARP_NOTES.getD (shiftIdx i N) [], (parseChord c).quality, none⟩ :=
        parseChord_reconstruct _ _ _ hsh1 hqual hq2 (fun _ => hq3 hb)
          (fun _ => hq4 hb) (by rintro bb ⟨⟩)
      -- backward transposition
      have h2 := transposeChord_eval_none hNneg
        (reconstruct_trim_ne_nil ((parseChord c).quality) none hsh1)
        (by rw [hp1]; exact hgn1) (by rw [hp1])
      rw [hp1] at h2
      dsimp only at h2
      rw [hrt] at h2
      -- re-parse of the round-tripped chord
      have hp2 : parseChord (reconstruct (SHARP_NOTES.getD i [])
          (parseChord c).quality none) =
          ⟨SHARP_NOTES.getD i [], (parseChord c).quality, none⟩ :=
        parseChord_reconstruct _ _ _ hsh2 hqual hq2 (fun _ => hq3 hb)
          (fun _ => hq4 hb) (by rintro bb ⟨⟩)
      refine ⟨_, _, h1, h2, ?_, ?_⟩
      · rw [hp2, hroot]
        exact hgn2
      · rw [hp2]
    | some bb =>
      obtain ⟨j, hj⟩ := exOk_iff.mp (hbass bb (by rw [hb]; rfl))
      have hj12 : j < 12 := getNoteIndex_lt hj
      have hj12' : shiftIdx j N < 12 := shiftIdx_lt hj12 hN1 hN2
      have hshb1 : sharpShape (SHARP_NOTES.getD (shiftIdx j N) []) = true :=
        sharpShape_table ⟨shiftIdx j N, hj12'⟩
      have hgnb1 : getNoteIndex (SHARP_NOTES.getD (shiftIdx j N) []) =
          .ok (shiftIdx j N) := getNoteIndex_table ⟨shiftIdx j N, hj12'⟩
      have hrtb : shiftIdx (shiftIdx j N) (-N) = j :=
        shiftIdx_roundtrip hj12 hN1 hN2
      have hshb2 : sharpShape (SHARP_NOTES.getD j []) = true :=
        sharpShape_table ⟨j, hj12⟩
      have hgnb2 : getNoteIndex (SHARP_NOTES.getD j []) = .ok j :=
        getNoteIndex_table ⟨j, hj12⟩
      -- forward transposition
      have h1 := transposeChord_eval_some hN hblank hroot hb hj
      -- re-parse of the transposed chord
      have hp1 : parseChord (reconstruct (SHARP_NOTES.getD (shiftIdx i N) [])
          (parseChord c).quality (some (SHARP_NOTES.getD (shiftIdx j N) []))) =
          ⟨SHARP_NOTES.getD (shiftIdx i N) [], (parseChord c).quality,
           some (SHARP_NOTES.getD (shiftIdx j N) [])⟩ :=
        parseChord_reconstruct _ _ _ hsh1 hqual hq2 (by rintro ⟨⟩)
          (by rintro ⟨⟩) (by
            rintro bb2 hbb2
            simp only [Option.mem_def, Option.some.injEq] at hbb2
            rw [← hbb2]
            exact hshb1)
      -- backward transposition
      have h2 := transposeChord_eval_some hNneg
        (reconstruct_trim_ne_nil ((parseChord c).quality)
          (some (SHARP_NOTES.getD (shiftIdx j N) [])) hsh1)
        (by rw [hp1]; exact hgn1) (by rw [hp1]) hgnb1
      rw [hp1] at h2
      dsimp only at h2
      rw [hrt, hrtb] at h2
      -- re-parse of the round-tripped chord
      have hp2 : parseChord (reconstruct (SHARP_NOTES.getD i [])
          (parseChord c).quality (some (SHARP_NOTES.getD j []))) =
          ⟨SHARP_NOTES.getD i [], (parseChord c).quality,
           some (SHARP_NOTES.getD j [])⟩ :=
        parseChord_reconstruct _ _ _ hsh2 hqual hq2 (by rintro ⟨⟩)
          (by rintro ⟨⟩) (by
            rintro bb2 hbb2
            simp only [Option.mem_def, Option.some.injEq] at hbb2
            rw [← hbb2]
            exact hshb2)
      refine ⟨_, _, h1, h2, ?_, ?_⟩
      · rw [hp2, hroot]
        exact hgn2
      · rw [hp2]
        dsimp only [Option.map]
        rw [hgnb2, hj]

/-- Witness for C4 at `c = "Cm"`, `N = 2`: the round trip goes through `Dm`
and back, preserving pitch class 0. -/
theorem C4_roundtrip_amended_witness :
    ∃ c1 c2, transposeChord "Cm".data 2 false = .ok c1 ∧
      transposeChord c1 (-2) false = .ok c2 ∧
      getNoteIndex (parseChord c2).root = getNoteIndex (parseChord "Cm".data).root ∧
      (parseChord c2).bass.map getNoteIndex =
        (parseChord "Cm".data).bass.map getNoteIndex :=
  C4_roundtrip_amended "Cm".data 2 0 (by decide) (by decide) (by decide)
    (by decide) (by decide) (by decide)
